import Mathlib

/-!
Shallow embedding of the Hermes attestation store (`hermes/src/store.rs`)
and the storage / proof-construction operations it relies on.

The embedding models the store as an explicit state record (`StoreState`),
and `Store::store_update` as a function from a state and an `Update` to the
next state paired with a success-or-error result.  External collaborators
(the VAA codec, the Wormhole signature verifier, the accumulator-message
codec, the keccak hash, and the two clocks) are treated as deterministic
oracles, packaged in an `Env` record, exactly as the specification treats
them ("the wire codecs ... treated as deterministic byte-to-value
mappings"; hashes "treated as oracles").

The Rust source splits each `store_update` call into a write phase
(store one half of the slot) and a completion phase (read back both
halves and, when both are present, build and store the `MessageState`s).
The two phases are separate critical sections in the source (each storage
access acquires and releases a lock at an `.await` point), so the
embedding keeps them as two separately invocable functions
(`write_phase` / `complete_phase`), with `store_update` as their
sequential composition.
-/

namespace Hermes

/-- Slots are 64-bit unsigned identifiers; modelled as `Nat` (no arithmetic
in the modelled code can overflow a slot). -/
abbrev Slot := Nat

/-- Raw byte strings, modelled as lists of naturals. -/
abbrev Bytes := List Nat

/-- The Merkle root committed to by a VAA payload
(`pythnet_sdk::wire::v1::WormholeMerkleRoot`). -/
structure WormholeMerkleRoot where
  slot : Slot
  ring_size : Nat
  root : Bytes
deriving DecidableEq

/-- The stored state for the VAA half of a slot: the parsed Merkle root plus
the verbatim VAA bytes (`proof::wormhole_merkle::WormholeMerkleState`). -/
structure WormholeMerkleState where
  root : WormholeMerkleRoot
  vaa : Bytes
deriving DecidableEq

/-- A batch of raw accumulator messages for one slot
(`types::AccumulatorMessages`). -/
structure AccumulatorMessages where
  magic : Bytes
  slot : Slot
  ring_size : Nat
  raw_messages : List Bytes
deriving DecidableEq

/-- The decoded price-feed message payload
(`pythnet_sdk::messages::PriceFeedMessage`). -/
structure PriceFeedMessage where
  feed_id : Bytes
  price : Int
  conf : Nat
  exponent : Int
  ema_price : Int
  ema_conf : Nat
  publish_time : Int
  prev_publish_time : Int
deriving DecidableEq

/-- A decoded message (`pythnet_sdk::messages::Message`).  The only variant
the query path exposes is `priceFeedMessage`; the remaining variants are
collapsed into `other`. -/
inductive Message where
  | priceFeedMessage (m : PriceFeedMessage)
  | other (tag : Nat)
deriving DecidableEq

/-- A Merkle inclusion proof: the sibling-hash path from a leaf to the root. -/
abbrev MerklePath := List Bytes

/-- The proofs attached to a `MessageState` (`types::ProofSet`). -/
structure ProofSet where
  wormhole_merkle_proof : MerklePath
deriving DecidableEq

/-- A completed per-message record (`storage::MessageState`): the decoded
message, the raw bytes it was decoded from, its proof set, the slot it came
from, and the wall-clock unix-seconds time at which the slot completed.
Field order follows the argument order of `MessageState::new` in the
source. -/
structure MessageState where
  message : Message
  raw_message : Bytes
  proof_set : ProofSet
  slot : Slot
  received_at : Int
deriving DecidableEq

/-- A parsed VAA (`wormhole_sdk::Vaa`), restricted to the fields the store
inspects.  `emitter_chain` is the numeric chain identifier. -/
structure Vaa where
  sequence : Nat
  emitter_chain : Nat
  emitter_address : Bytes
  guardian_set_index : Nat
  payload : Bytes
deriving DecidableEq

/-- A guardian set (`wormhole::GuardianSet`): an ordered list of 20-byte
signer addresses. -/
structure GuardianSet where
  keys : List Bytes
deriving DecidableEq

/-- The two kinds of update accepted by `Store::store_update`
(`types::Update`). -/
inductive Update where
  | vaa (bytes : Bytes)
  | accumulatorMessages (batch : AccumulatorMessages)
deriving DecidableEq

/-- The distinguishable fatal errors `store_update` can propagate to its
caller (the `anyhow` errors raised in `store.rs`). -/
inductive StoreError where
  | vaaParse
  | wormholeMessageParse
  | integrity
  | messageDecode
  | missingProof
deriving DecidableEq

/-- Result of a `store_update` call: `Ok(())` or a propagated error. -/
inductive StoreResult where
  | ok
  | err (e : StoreError)
deriving DecidableEq

/-- The external oracles and configuration of the store.  Per the
specification, the wire codecs (`serde_wormhole::from_slice`,
`WormholeMessage::try_from_bytes`, `pythnet_sdk::wire::from_slice`), the
signature verifier, the keccak-160 hash and the two clocks are
deterministic external collaborators, so they appear here as opaque
functions.  `emitterChain` / `emitterAddress` model the constants
`Chain::Pythnet` and `pythnet_sdk::ACCUMULATOR_EMITTER_ADDRESS`;
`cache_size` is the slot-retention bound passed to `Storage::new`;
`now_unix` is the wall-clock sample `SystemTime::now()` returns during the
call and `now_mono` the monotonic sample `Instant::now()` returns. -/
structure Env where
  emitterChain : Nat
  emitterAddress : Bytes
  cache_size : Nat
  parseVaa : Bytes → Option Vaa
  verifyVaa : List (Nat × GuardianSet) → Vaa → Bool
  parseWormholeMessage : Bytes → Option WormholeMerkleRoot
  parseMessage : Bytes → Option Message
  hashLeaf : Bytes → Bytes
  hashNode : Bytes → Bytes → Bytes
  now_unix : Int
  now_mono : Nat

/-- The mutable state owned by `Store` (fields of `struct Store` plus the
two maps inside `Storage`).  The key-value maps are association lists; the
`BTreeSet` of observed sequences is a strictly-sorted list.  `completions`
counts the `()` notifications sent on `update_tx`, and `builds` is the
(ghost) list of slots for which `build_message_states` has been invoked,
in invocation order -- it records invocations only and never influences
control flow. -/
structure StoreState where
  accumulatorMessagesMap : List (Slot × AccumulatorMessages)
  wormholeMerkleStateMap : List (Slot × WormholeMerkleState)
  messageStates : List MessageState
  observed_vaa_seqs : List Nat
  guardian_set : List (Nat × GuardianSet)
  last_completed_update_at : Option Nat
  completions : Nat
  builds : List Slot
deriving DecidableEq

/-- The state `Store::new` creates: everything empty,
`last_completed_update_at = None`. -/
def initialStore : StoreState :=
  ⟨[], [], [], [], [], none, 0, []⟩

/-- `const OBSERVED_CACHE_SIZE: usize = 1000`. -/
def OBSERVED_CACHE_SIZE : Nat := 1000

/-- `const READINESS_STALENESS_THRESHOLD: Duration = Duration::from_secs(30)`,
in seconds. -/
def READINESS_STALENESS_THRESHOLD : Nat := 30

/-- Insert into a strictly-sorted ascending list, keeping it sorted and
duplicate-free (`BTreeSet::insert`). -/
def insertSorted (x : Nat) : List Nat → List Nat
  | [] => [x]
  | y :: ys =>
    if x < y then x :: y :: ys
    else if x = y then y :: ys
    else y :: insertSorted x ys

/-- One `while observed_vaa_seqs.len() > OBSERVED_CACHE_SIZE
{ observed_vaa_seqs.pop_first(); }` loop, with an explicit fuel bound (the
loop removes one element per iteration, so `l.length` iterations always
suffice).  `pop_first` on a sorted list removes the head, i.e. the
numerically smallest element. -/
def trimLoop : Nat → List Nat → List Nat
  | 0, l => l
  | fuel + 1, l =>
    if OBSERVED_CACHE_SIZE < l.length then trimLoop fuel l.tail else l

/-- The trim loop run to completion. -/
def trimObserved (l : List Nat) : List Nat := trimLoop l.length l

/-- Lines 150-156 of `store.rs`: insert the verified VAA's sequence into
`observed_vaa_seqs`, then trim the set down to `OBSERVED_CACHE_SIZE`. -/
def observeSequence (seq : Nat) (l : List Nat) : List Nat :=
  trimObserved (insertSorted seq l)

/-- Idempotent upsert into an association list keyed by slot.  Modelled from
the spec: `store_wormhole_merkle_state` / `store_accumulator_messages` are
"idempotent upsert keyed by slot" operations of the `storage` module, whose
source is not under `src/`. -/
def upsert {α : Type} (k : Slot) (v : α) : List (Slot × α) → List (Slot × α)
  | [] => [(k, v)]
  | (k', v') :: rest =>
    if k = k' then (k, v) :: rest else (k', v') :: upsert k v rest

/-- Lookup in an association list keyed by slot (`fetch_accumulator_messages`
/ `fetch_wormhole_merkle_state`, returning `Option`). -/
def lookupSlot {α : Type} (m : List (Slot × α)) (k : Slot) : Option α :=
  match m with
  | [] => none
  | (k', v) :: rest => if k = k' then some v else lookupSlot rest k

/-- Hash one level of the Merkle tree: combine adjacent pairs with the node
hash, pass an unpaired last element through. -/
def merkleLevel (node : Bytes → Bytes → Bytes) : List Bytes → List Bytes
  | [] => []
  | [x] => [x]
  | x :: y :: rest => node x y :: merkleLevel node rest

/-- Reduce the leaf level to the root, with fuel (each level at least halves
a multi-element list, so `length` fuel always suffices). -/
def merkleReduce (node : Bytes → Bytes → Bytes) : Nat → List Bytes → Bytes
  | _, [] => []
  | _, [x] => x
  | 0, _ :: _ :: _ => []
  | fuel + 1, x :: y :: rest => merkleReduce node fuel (merkleLevel node (x :: y :: rest))

/-- Modelled from the spec: the Merkle root the prover computes over an
ordered list of raw message byte-strings ("build a Merkle tree using a
fixed hash and a fixed tree shape; the tree shape is a contract").  The
leaf and node hashes are the `Env` oracles. -/
def merkleRoot (env : Env) (msgs : List Bytes) : Bytes :=
  merkleReduce env.hashNode msgs.length (msgs.map env.hashLeaf)

/-- Sibling-hash path for the leaf at index `i`, walking the levels of the
tree (again with length fuel). -/
def siblingAt (node : Bytes → Bytes → Bytes) : Nat → Nat → List Bytes → MerklePath
  | _, _, [] => []
  | _, _, [_] => []
  | 0, _, _ :: _ :: _ => []
  | fuel + 1, i, x :: y :: rest =>
    (if i % 2 = 0 then ((x :: y :: rest).get? (i + 1)).getD []
     else ((x :: y :: rest).get? (i - 1)).getD []) ::
      siblingAt node fuel (i / 2) (merkleLevel node (x :: y :: rest))

/-- Modelled from the spec: `construct_message_states_proofs` from the
`proof::wormhole_merkle` module, whose source is not under `src/`.  Per the
spec, it deterministically builds the Merkle tree over the slot's raw
messages, rejects the slot if the constructed root does not equal the root
carried in the associated `WormholeMerkleRoot` (no `MessageState`s are
produced), and otherwise emits the inclusion proof for each leaf index. -/
def construct_message_states_proofs (env : Env) (acc : AccumulatorMessages)
    (wms : WormholeMerkleState) : Except StoreError (List MerklePath) :=
  if merkleRoot env acc.raw_messages = wms.root.root then
    Except.ok ((List.range acc.raw_messages.length).map
      (fun i => siblingAt env.hashNode acc.raw_messages.length i
        (acc.raw_messages.map env.hashLeaf)))
  else Except.error StoreError.integrity

/-- Slots currently having at least one `MessageState`. -/
def slotsOf (l : List MessageState) : Finset Nat :=
  (l.map MessageState.slot).toFinset

/-- The `k` largest elements of a finite set of slots: the elements with
fewer than `k` elements above them. -/
def retainedSlots (k : Nat) (s : Finset Nat) : Finset Nat :=
  s.filter (fun x => (s.filter (fun y => x < y)).card < k)

/-- Modelled from the spec: `Storage::store_message_states` from the
`storage` module, whose source is not under `src/`.  Per the spec, it
inserts a batch of `MessageState`s and then enforces the cache policy:
"after any insertion the store computes the set of slots that currently
have any MessageState; if that set has more than `cache_size` elements, it
selects the slots to retain by taking the `cache_size` largest slot numbers
and drops all MessageStates whose slot is not retained". -/
def store_message_states (k : Nat) (history newStates : List MessageState) :
    List MessageState :=
  let all := history ++ newStates
  let slots := slotsOf all
  if slots.card ≤ k then all
  else all.filter (fun m => m.slot ∈ retainedSlots k slots)

/-- The `enumerate().map(...).collect::<Result<Vec<_>>>()` loop in
`build_message_states` (lines 214-233 of `store.rs`): decode each raw
message (first failure aborts with an error), look up the proof for its
index (a missing proof aborts with an error), and build the
`MessageState` with the batch slot and the single `current_time` sample. -/
def buildMessageStatesList (env : Env) (slot : Slot) (t : Int)
    (proofs : List MerklePath) : Nat → List Bytes → Except StoreError (List MessageState)
  | _, [] => Except.ok []
  | idx, raw :: rest =>
    match env.parseMessage raw with
    | none => Except.error StoreError.messageDecode
    | some msg =>
      match proofs[idx]? with
      | none => Except.error StoreError.missingProof
      | some p =>
        match buildMessageStatesList env slot t proofs (idx + 1) rest with
        | Except.error e => Except.error e
        | Except.ok tl => Except.ok (⟨msg, raw, ⟨p⟩, slot, t⟩ :: tl)

/-- The list of `MessageState`s a `build_message_states` invocation
constructs (or the error it propagates): construct the per-message proofs,
sample the wall clock once, then run the decode loop from index 0. -/
def message_states_of (env : Env) (acc : AccumulatorMessages)
    (wms : WormholeMerkleState) : Except StoreError (List MessageState) :=
  match construct_message_states_proofs env acc wms with
  | Except.error e => Except.error e
  | Except.ok proofs =>
    buildMessageStatesList env acc.slot env.now_unix proofs 0 acc.raw_messages

/-- `Store::build_message_states` (lines 203-240 of `store.rs`).  The ghost
`builds` field records the invocation.  On success the constructed states
are inserted through `store_message_states` (which runs cache eviction);
on any error the state is otherwise unchanged and the error propagates. -/
def build_message_states (env : Env) (st : StoreState)
    (acc : AccumulatorMessages) (wms : WormholeMerkleState) :
    StoreState × StoreResult :=
  let st' := { st with builds := st.builds ++ [acc.slot] }
  match message_states_of env acc wms with
  | Except.error e => (st', StoreResult.err e)
  | Except.ok l =>
    ({ st' with
        messageStates := store_message_states env.cache_size st'.messageStates l },
      StoreResult.ok)

/-- Outcome of the write phase of `store_update`: an early `Ok(())` return,
an early propagated error, or the working slot to run the completion check
on. -/
inductive WriteOut where
  | earlyOk
  | earlyErr (e : StoreError)
  | proceed (slot : Slot)
deriving DecidableEq

/-- The write phase of `Store::store_update` (lines 124-175 of `store.rs`):
classify the update, and for a VAA run the parse / emitter-filter / dedup /
verify / observe / payload-parse pipeline and store the
`WormholeMerkleState`; for an accumulator batch store the batch.  Returns
the working slot when the call falls through to the completion check. -/
def write_phase (env : Env) (st : StoreState) (u : Update) :
    StoreState × WriteOut :=
  match u with
  | Update.accumulatorMessages batch =>
    ({ st with
        accumulatorMessagesMap := upsert batch.slot batch st.accumulatorMessagesMap },
      WriteOut.proceed batch.slot)
  | Update.vaa bytes =>
    match env.parseVaa bytes with
    | none => (st, WriteOut.earlyErr StoreError.vaaParse)
    | some vaa =>
      if vaa.emitter_chain ≠ env.emitterChain ∨ vaa.emitter_address ≠ env.emitterAddress then
        (st, WriteOut.earlyOk)
      else if vaa.sequence ∈ st.observed_vaa_seqs then
        (st, WriteOut.earlyOk)
      else if ¬ env.verifyVaa st.guardian_set vaa = true then
        (st, WriteOut.earlyOk)
      else
        let st' := { st with
          observed_vaa_seqs := observeSequence vaa.sequence st.observed_vaa_seqs }
        match env.parseWormholeMessage vaa.payload with
        | none => (st', WriteOut.earlyErr StoreError.wormholeMessageParse)
        | some root =>
          ({ st' with
              wormholeMerkleStateMap :=
                upsert root.slot ⟨root, bytes⟩ st'.wormholeMerkleStateMap },
            WriteOut.proceed root.slot)

/-- The completion phase of `Store::store_update` (lines 177-200 of
`store.rs`): read back both halves of the working slot; if either is absent
return `Ok(())`; otherwise invoke `build_message_states`, and on its
success send the `()` completion notification and record the monotonic
completion time. -/
def complete_phase (env : Env) (st : StoreState) (slot : Slot) :
    StoreState × StoreResult :=
  match lookupSlot st.accumulatorMessagesMap slot,
        lookupSlot st.wormholeMerkleStateMap slot with
  | some acc, some wms =>
    match build_message_states env st acc wms with
    | (st', StoreResult.ok) =>
      ({ st' with
          completions := st'.completions + 1,
          last_completed_update_at := some env.now_mono },
        StoreResult.ok)
    | (st', StoreResult.err e) => (st', StoreResult.err e)
  | _, _ => (st, StoreResult.ok)

/-- `Store::store_update` (lines 121-201 of `store.rs`): the write phase
followed by the completion phase. -/
def store_update (env : Env) (st : StoreState) (u : Update) :
    StoreState × StoreResult :=
  match write_phase env st u with
  | (st', WriteOut.earlyOk) => (st', StoreResult.ok)
  | (st', WriteOut.earlyErr e) => (st', StoreResult.err e)
  | (st', WriteOut.proceed slot) => complete_phase env st' slot

/-- Run a sequence of `store_update` calls, keeping the state and dropping
the per-call results. -/
def runUpdates (env : Env) (st : StoreState) (us : List Update) : StoreState :=
  us.foldl (fun s u => (store_update env s u).1) st

/-- `Store::is_ready` (lines 297-305 of `store.rs`): true iff
`last_completed_update_at` is set and the monotonic time elapsed since it
is strictly below `READINESS_STALENESS_THRESHOLD`.  `Instant::elapsed` is
`now - earlier` on the monotonic clock, i.e. truncated subtraction. -/
def is_ready (env : Env) (st : StoreState) : Bool :=
  match st.last_completed_update_at with
  | some t => env.now_mono - t < READINESS_STALENESS_THRESHOLD
  | none => false

/-! ### Concrete instantiation of the oracles, for closed test runs -/

/-- A concrete instantiation of the external oracles, used by the closed
witness and counterexample theorems: the byte string `[n]` parses as a VAA
with sequence `n` from the configured emitter, carrying payload `[2]` when
`n = 20` (committing a slot-10 root) and payload `[3]` otherwise
(committing a slot-99 root); every signature check passes; every raw
message decodes; leaves hash to themselves and nodes concatenate. -/
def testEnv : Env where
  emitterChain := 26
  emitterAddress := [7]
  cache_size := 10
  parseVaa := fun b =>
    match b with
    | [n] => some ⟨n, 26, [7], 0, if n = 20 then [2] else [3]⟩
    | _ => none
  verifyVaa := fun _ _ => true
  parseWormholeMessage := fun p =>
    if p = [2] then some ⟨10, 100, [1, 2]⟩
    else if p = [3] then some ⟨99, 100, [9]⟩
    else none
  parseMessage := fun _ => some (Message.other 0)
  hashLeaf := id
  hashNode := fun a b => a ++ b
  now_unix := 5
  now_mono := 5

/-- A concrete two-message accumulator batch for slot 10.  Under `testEnv`
its Merkle root is `[1, 2]`, the root committed by the payload-`[2]` VAA. -/
def testBatch : AccumulatorMessages := ⟨[0, 0, 0, 0], 10, 100, [[1], [2]]⟩

/-- The `WormholeMerkleState` the payload-`[2]` VAA (bytes `[20]`) stores
for slot 10. -/
def testWms : WormholeMerkleState := ⟨⟨10, 100, [1, 2]⟩, [20]⟩

/-! ### Lemmas about the observed-sequence cache -/

theorem lookupSlot_upsert_self {α : Type} (k : Slot) (v : α) :
    ∀ m : List (Slot × α), lookupSlot (upsert k v m) k = some v := by
  intro m
  induction m with
  | nil => simp [upsert, lookupSlot]
  | cons hd tl ih =>
    obtain ⟨k', v'⟩ := hd
    by_cases h : k = k'
    · simp [upsert, lookupSlot, h]
    · simp [upsert, lookupSlot, h, ih]

theorem trimLoop_length_le (fuel : Nat) :
    ∀ l : List Nat, l.length ≤ OBSERVED_CACHE_SIZE + fuel →
      (trimLoop fuel l).length ≤ OBSERVED_CACHE_SIZE := by
  induction fuel with
  | zero => intro l h; simpa [trimLoop] using h
  | succ n ih =>
    intro l h
    by_cases hl : OBSERVED_CACHE_SIZE < l.length
    · have : l.tail.length ≤ OBSERVED_CACHE_SIZE + n := by
        simp only [List.length_tail]
        omega
      simpa [trimLoop, hl] using ih l.tail this
    · simpa [trimLoop, hl] using Nat.le_of_not_lt hl

theorem trimObserved_length_le (l : List Nat) :
    (trimObserved l).length ≤ OBSERVED_CACHE_SIZE := by
  exact trimLoop_length_le l.length l (by omega)

theorem observeSequence_length_le (seq : Nat) (l : List Nat) :
    (observeSequence seq l).length ≤ OBSERVED_CACHE_SIZE :=
  trimObserved_length_le (insertSorted seq l)

theorem trimLoop_eq_of_le (l : List Nat) (h : l.length ≤ OBSERVED_CACHE_SIZE) :
    ∀ fuel, trimLoop fuel l = l := by
  intro fuel
  cases fuel with
  | zero => rfl
  | succ n => simp [trimLoop, Nat.not_lt_of_le h]

theorem trimObserved_eq_of_le (l : List Nat) (h : l.length ≤ OBSERVED_CACHE_SIZE) :
    trimObserved l = l :=
  trimLoop_eq_of_le l h l.length

theorem trimLoop_succ_of_lt (n : Nat) (l : List Nat)
    (h : OBSERVED_CACHE_SIZE < l.length) :
    trimLoop (n + 1) l = trimLoop n l.tail := by
  simp [trimLoop, h]

theorem trimObserved_eq_tail (l : List Nat)
    (h : l.length = OBSERVED_CACHE_SIZE + 1) : trimObserved l = l.tail := by
  have h2 : OBSERVED_CACHE_SIZE < l.length := by omega
  have h3 : l.tail.length ≤ OBSERVED_CACHE_SIZE := by
    simp only [List.length_tail]
    omega
  unfold trimObserved
  rw [h, trimLoop_succ_of_lt OBSERVED_CACHE_SIZE l h2,
    trimLoop_eq_of_le l.tail h3]

theorem mem_insertSorted (x y : Nat) :
    ∀ l : List Nat, y ∈ insertSorted x l ↔ y = x ∨ y ∈ l := by
  intro l
  induction l with
  | nil => simp [insertSorted]
  | cons z zs ih =>
    by_cases h1 : x < z
    · simp [insertSorted, h1]
    · by_cases h2 : x = z
      · subst h2
        simp [insertSorted, h1]
      · simp [insertSorted, h1, h2, ih]
        tauto

theorem insertSorted_sorted (x : Nat) :
    ∀ l : List Nat, List.Sorted (fun a b => a < b) l →
      List.Sorted (fun a b => a < b) (insertSorted x l) := by
  intro l
  induction l with
  | nil => simp [insertSorted]
  | cons z zs ih =>
    intro hs
    rw [List.sorted_cons] at hs
    by_cases h1 : x < z
    · simp only [insertSorted, if_pos h1]
      rw [List.sorted_cons]
      constructor
      · intro b hb
        rcases List.mem_cons.mp hb with hb | hb
        · omega
        · exact lt_trans h1 (hs.1 b hb)
      · exact List.sorted_cons.mpr hs
    · by_cases h2 : x = z
      · simp only [insertSorted, if_neg h1, if_pos h2]
        exact List.sorted_cons.mpr hs
      · simp only [insertSorted, if_neg h1, if_neg h2]
        rw [List.sorted_cons]
        constructor
        · intro b hb
          rcases (mem_insertSorted x b zs).mp hb with hb | hb
          · omega
          · exact hs.1 b hb
        · exact ih hs.2

theorem insertSorted_length_of_not_mem (x : Nat) :
    ∀ l : List Nat, x ∉ l → (insertSorted x l).length = l.length + 1 := by
  intro l
  induction l with
  | nil => simp [insertSorted]
  | cons z zs ih =>
    intro hx
    by_cases h1 : x < z
    · simp [insertSorted, h1]
    · have h2 : ¬ x = z := by
        intro he
        exact hx (he ▸ List.mem_cons_self x zs)
      have hx' : x ∉ zs := fun hm => hx (List.mem_cons_of_mem z hm)
      simp [insertSorted, h1, h2, ih hx']

theorem insertSorted_append_of_lt (x : Nat) :
    ∀ l : List Nat, (∀ y ∈ l, y < x) → insertSorted x l = l ++ [x] := by
  intro l
  induction l with
  | nil => simp [insertSorted]
  | cons z zs ih =>
    intro hl
    have hz : z < x := hl z (List.mem_cons_self z zs)
    have h1 : ¬ x < z := by omega
    have h2 : ¬ x = z := by omega
    simp [insertSorted, h1, h2, ih (fun y hy => hl y (List.mem_cons_of_mem z hy))]

theorem sorted_head_min (a : Nat) (l : List Nat)
    (hs : List.Sorted (fun x y => x < y) (a :: l)) :
    ∀ y ∈ a :: l, a ≤ y := by
  intro y hy
  rcases List.mem_cons.mp hy with hy | hy
  · omega
  · exact Nat.le_of_lt ((List.sorted_cons.mp hs).1 y hy)

/-! ### Branch equations for the phases of `store_update` -/

theorem write_phase_acc (env : Env) (st : StoreState) (batch : AccumulatorMessages) :
    write_phase env st (Update.accumulatorMessages batch) =
      ({ st with
          accumulatorMessagesMap := upsert batch.slot batch st.accumulatorMessagesMap },
        WriteOut.proceed batch.slot) := rfl

theorem write_phase_vaa_parse_none (env : Env) (st : StoreState) (bytes : Bytes)
    (h : env.parseVaa bytes = none) :
    write_phase env st (Update.vaa bytes) = (st, WriteOut.earlyErr StoreError.vaaParse) := by
  simp [write_phase, h]

theorem write_phase_vaa_emitter_mismatch (env : Env) (st : StoreState)
    (bytes : Bytes) (vaa : Vaa) (h : env.parseVaa bytes = some vaa)
    (hm : vaa.emitter_chain ≠ env.emitterChain ∨ vaa.emitter_address ≠ env.emitterAddress) :
    write_phase env st (Update.vaa bytes) = (st, WriteOut.earlyOk) := by
  simp only [write_phase, h]
  rw [if_pos hm]

theorem write_phase_vaa_observed (env : Env) (st : StoreState)
    (bytes : Bytes) (vaa : Vaa) (h : env.parseVaa bytes = some vaa)
    (hc : vaa.emitter_chain = env.emitterChain)
    (ha : vaa.emitter_address = env.emitterAddress)
    (hobs : vaa.sequence ∈ st.observed_vaa_seqs) :
    write_phase env st (Update.vaa bytes) = (st, WriteOut.earlyOk) := by
  simp only [write_phase, h]
  rw [if_neg (by simp [hc, ha]), if_pos hobs]

theorem write_phase_vaa_unverified (env : Env) (st : StoreState)
    (bytes : Bytes) (vaa : Vaa) (h : env.parseVaa bytes = some vaa)
    (hc : vaa.emitter_chain = env.emitterChain)
    (ha : vaa.emitter_address = env.emitterAddress)
    (hobs : vaa.sequence ∉ st.observed_vaa_seqs)
    (hv : ¬ env.verifyVaa st.guardian_set vaa = true) :
    write_phase env st (Update.vaa bytes) = (st, WriteOut.earlyOk) := by
  simp only [write_phase, h]
  rw [if_neg (by simp [hc, ha]), if_neg hobs, if_pos hv]

theorem write_phase_vaa_payload_none (env : Env) (st : StoreState)
    (bytes : Bytes) (vaa : Vaa) (h : env.parseVaa bytes = some vaa)
    (hc : vaa.emitter_chain = env.emitterChain)
    (ha : vaa.emitter_address = env.emitterAddress)
    (hobs : vaa.sequence ∉ st.observed_vaa_seqs)
    (hv : env.verifyVaa st.guardian_set vaa = true)
    (hp : env.parseWormholeMessage vaa.payload = none) :
    write_phase env st (Update.vaa bytes) =
      ({ st with observed_vaa_seqs := observeSequence vaa.sequence st.observed_vaa_seqs },
        WriteOut.earlyErr StoreError.wormholeMessageParse) := by
  simp only [write_phase, h]
  rw [if_neg (by simp [hc, ha]), if_neg hobs, if_neg (by simp [hv])]
  simp [hp]

theorem write_phase_vaa_proceed (env : Env) (st : StoreState)
    (bytes : Bytes) (vaa : Vaa) (root : WormholeMerkleRoot)
    (h : env.parseVaa bytes = some vaa)
    (hc : vaa.emitter_chain = env.emitterChain)
    (ha : vaa.emitter_address = env.emitterAddress)
    (hobs : vaa.sequence ∉ st.observed_vaa_seqs)
    (hv : env.verifyVaa st.guardian_set vaa = true)
    (hp : env.parseWormholeMessage vaa.payload = some root) :
    write_phase env st (Update.vaa bytes) =
      ({ st with
          observed_vaa_seqs := observeSequence vaa.sequence st.observed_vaa_seqs,
          wormholeMerkleStateMap :=
            upsert root.slot ⟨root, bytes⟩ st.wormholeMerkleStateMap },
        WriteOut.proceed root.slot) := by
  simp only [write_phase, h]
  rw [if_neg (by simp [hc, ha]), if_neg hobs, if_neg (by simp [hv])]
  simp [hp]

theorem complete_phase_no_acc (env : Env) (st : StoreState) (slot : Slot)
    (h : lookupSlot st.accumulatorMessagesMap slot = none) :
    complete_phase env st slot = (st, StoreResult.ok) := by
  simp [complete_phase, h]

theorem complete_phase_no_wms (env : Env) (st : StoreState) (slot : Slot)
    (h : lookupSlot st.wormholeMerkleStateMap slot = none) :
    complete_phase env st slot = (st, StoreResult.ok) := by
  rcases hacc : lookupSlot st.accumulatorMessagesMap slot with _ | acc <;>
    simp [complete_phase, hacc, h]

theorem complete_phase_err (env : Env) (st : StoreState) (slot : Slot)
    (acc : AccumulatorMessages) (wms : WormholeMerkleState) (e : StoreError)
    (hacc : lookupSlot st.accumulatorMessagesMap slot = some acc)
    (hwms : lookupSlot st.wormholeMerkleStateMap slot = some wms)
    (hms : message_states_of env acc wms = Except.error e) :
    complete_phase env st slot =
      ({ st with builds := st.builds ++ [acc.slot] }, StoreResult.err e) := by
  simp [complete_phase, build_message_states, hacc, hwms, hms]

theorem complete_phase_ok (env : Env) (st : StoreState) (slot : Slot)
    (acc : AccumulatorMessages) (wms : WormholeMerkleState)
    (l : List MessageState)
    (hacc : lookupSlot st.accumulatorMessagesMap slot = some acc)
    (hwms : lookupSlot st.wormholeMerkleStateMap slot = some wms)
    (hms : message_states_of env acc wms = Except.ok l) :
    complete_phase env st slot =
      ({ st with
          builds := st.builds ++ [acc.slot],
          messageStates := store_message_states env.cache_size st.messageStates l,
          completions := st.completions + 1,
          last_completed_update_at := some env.now_mono },
        StoreResult.ok) := by
  simp [complete_phase, build_message_states, hacc, hwms, hms]

theorem complete_phase_observed (env : Env) (st : StoreState) (slot : Slot) :
    ((complete_phase env st slot).1).observed_vaa_seqs = st.observed_vaa_seqs := by
  rcases hacc : lookupSlot st.accumulatorMessagesMap slot with _ | acc
  · simp [complete_phase_no_acc env st slot hacc]
  rcases hwms : lookupSlot st.wormholeMerkleStateMap slot with _ | wms
  · simp [complete_phase_no_wms env st slot hwms]
  rcases hms : message_states_of env acc wms with e | l
  · simp [complete_phase_err env st slot acc wms e hacc hwms hms]
  · simp [complete_phase_ok env st slot acc wms l hacc hwms hms]

theorem store_update_acc (env : Env) (st : StoreState) (batch : AccumulatorMessages) :
    store_update env st (Update.accumulatorMessages batch) =
      complete_phase env
        { st with accumulatorMessagesMap :=
            upsert batch.slot batch st.accumulatorMessagesMap }
        batch.slot := by
  simp [store_update, write_phase_acc]

theorem store_update_vaa_proceed (env : Env) (st : StoreState)
    (bytes : Bytes) (vaa : Vaa) (root : WormholeMerkleRoot)
    (h : env.parseVaa bytes = some vaa)
    (hc : vaa.emitter_chain = env.emitterChain)
    (ha : vaa.emitter_address = env.emitterAddress)
    (hobs : vaa.sequence ∉ st.observed_vaa_seqs)
    (hv : env.verifyVaa st.guardian_set vaa = true)
    (hp : env.parseWormholeMessage vaa.payload = some root) :
    store_update env st (Update.vaa bytes) =
      complete_phase env
        { st with
            observed_vaa_seqs := observeSequence vaa.sequence st.observed_vaa_seqs,
            wormholeMerkleStateMap :=
              upsert root.slot ⟨root, bytes⟩ st.wormholeMerkleStateMap }
        root.slot := by
  simp [store_update, write_phase_vaa_proceed env st bytes vaa root h hc ha hobs hv hp]

/-! ### Lemmas about proof construction and message-state building -/

theorem construct_ok_length (env : Env) (acc : AccumulatorMessages)
    (wms : WormholeMerkleState) (ps : List MerklePath)
    (h : construct_message_states_proofs env acc wms = Except.ok ps) :
    ps.length = acc.raw_messages.length := by
  unfold construct_message_states_proofs at h
  by_cases hr : merkleRoot env acc.raw_messages = wms.root.root
  · rw [if_pos hr] at h
    simp only [Except.ok.injEq] at h
    subst h
    simp
  · rw [if_neg hr] at h
    exact absurd h (by simp)

theorem construct_err_of_root_ne (env : Env) (acc : AccumulatorMessages)
    (wms : WormholeMerkleState)
    (h : merkleRoot env acc.raw_messages ≠ wms.root.root) :
    construct_message_states_proofs env acc wms = Except.error StoreError.integrity := by
  simp [construct_message_states_proofs, h]

theorem buildMessageStatesList_decode_err (env : Env) (slot : Slot) (t : Int)
    (proofs : List MerklePath) :
    ∀ (raws : List Bytes) (idx : Nat),
      (∃ raw ∈ raws, env.parseMessage raw = none) →
      ∃ e, buildMessageStatesList env slot t proofs idx raws = Except.error e := by
  intro raws
  induction raws with
  | nil => intro idx h; simp at h
  | cons raw rest ih =>
    intro idx h
    rcases hm : env.parseMessage raw with _ | msg
    · exact ⟨StoreError.messageDecode, by simp [buildMessageStatesList, hm]⟩
    · have hr : ∃ r ∈ rest, env.parseMessage r = none := by
        obtain ⟨r, hrm, hrn⟩ := h
        rcases List.mem_cons.mp hrm with rfl | hrm
        · rw [hm] at hrn
          exact absurd hrn (by simp)
        · exact ⟨r, hrm, hrn⟩
      rcases hp : proofs[idx]? with _ | p
      · exact ⟨StoreError.missingProof, by simp [buildMessageStatesList, hm, hp]⟩
      · obtain ⟨e, he⟩ := ih (idx + 1) hr
        exact ⟨e, by simp [buildMessageStatesList, hm, hp, he]⟩

theorem buildMessageStatesList_ok_shape (env : Env) (slot : Slot) (t : Int)
    (proofs : List MerklePath) :
    ∀ (raws : List Bytes) (idx : Nat) (l : List MessageState),
      buildMessageStatesList env slot t proofs idx raws = Except.ok l →
      l.length = raws.length ∧
      ∀ (i : Nat) (ms : MessageState), l[i]? = some ms →
        ms.slot = slot ∧ ms.received_at = t ∧ raws[i]? = some ms.raw_message := by
  intro raws
  induction raws with
  | nil =>
    intro idx l h
    simp only [buildMessageStatesList, Except.ok.injEq] at h
    subst h
    simp
  | cons raw rest ih =>
    intro idx l h
    rcases hm : env.parseMessage raw with _ | msg
    · rw [buildMessageStatesList, hm] at h
      exact absurd h (by simp)
    rcases hp : proofs[idx]? with _ | p
    · rw [buildMessageStatesList, hm, hp] at h
      exact absurd h (by simp)
    rcases hrec : buildMessageStatesList env slot t proofs (idx + 1) rest with e | tl
    · rw [buildMessageStatesList, hm, hp, hrec] at h
      exact absurd h (by simp)
    rw [buildMessageStatesList, hm, hp, hrec] at h
    simp only [Except.ok.injEq] at h
    subst h
    obtain ⟨hlen, hall⟩ := ih (idx + 1) tl hrec
    refine ⟨by simp [hlen], ?_⟩
    intro i ms hms
    cases i with
    | zero =>
      simp only [List.getElem?_cons_zero, Option.some.injEq] at hms
      subst hms
      simp
    | succ j =>
      simp only [List.getElem?_cons_succ] at hms ⊢
      exact hall j ms hms

theorem message_states_of_err (env : Env) (acc : AccumulatorMessages)
    (wms : WormholeMerkleState)
    (h : merkleRoot env acc.raw_messages ≠ wms.root.root ∨
         (∃ raw ∈ acc.raw_messages, env.parseMessage raw = none) ∨
         (∃ ps, construct_message_states_proofs env acc wms = Except.ok ps ∧
            ps.length < acc.raw_messages.length)) :
    ∃ e, message_states_of env acc wms = Except.error e := by
  rcases h with h | h | h
  · exact ⟨StoreError.integrity,
      by simp [message_states_of, construct_err_of_root_ne env acc wms h]⟩
  · rcases hc : construct_message_states_proofs env acc wms with e | ps
    · exact ⟨e, by simp [message_states_of, hc]⟩
    · obtain ⟨e, he⟩ :=
        buildMessageStatesList_decode_err env acc.slot env.now_unix ps acc.raw_messages 0 h
      exact ⟨e, by simp [message_states_of, hc, he]⟩
  · obtain ⟨ps, hps, hlt⟩ := h
    have := construct_ok_length env acc wms ps hps
    omega

theorem message_states_of_shape (env : Env) (acc : AccumulatorMessages)
    (wms : WormholeMerkleState) (l : List MessageState)
    (h : message_states_of env acc wms = Except.ok l) :
    l.length = acc.raw_messages.length ∧
    ∀ (i : Nat) (ms : MessageState), l[i]? = some ms →
      ms.slot = acc.slot ∧ ms.received_at = env.now_unix ∧
        acc.raw_messages[i]? = some ms.raw_message := by
  unfold message_states_of at h
  rcases hc : construct_message_states_proofs env acc wms with e | ps
  · rw [hc] at h
    exact absurd h (by simp)
  · rw [hc] at h
    exact buildMessageStatesList_ok_shape env acc.slot env.now_unix ps acc.raw_messages 0 l h

/-! ### Completion bookkeeping along runs -/

theorem write_phase_preserves (env : Env) (st : StoreState) (u : Update) :
    ((write_phase env st u).1).completions = st.completions ∧
    ((write_phase env st u).1).last_completed_update_at = st.last_completed_update_at ∧
    ((write_phase env st u).1).messageStates = st.messageStates ∧
    ((write_phase env st u).1).builds = st.builds := by
  rcases u with bytes | batch
  · simp only [write_phase]
    cases h : env.parseVaa bytes with
    | none => simp
    | some vaa =>
      dsimp only
      by_cases h1 : vaa.emitter_chain ≠ env.emitterChain ∨
          vaa.emitter_address ≠ env.emitterAddress
      · rw [if_pos h1]
        simp
      · rw [if_neg h1]
        by_cases h2 : vaa.sequence ∈ st.observed_vaa_seqs
        · rw [if_pos h2]
          simp
        · rw [if_neg h2]
          by_cases h3 : ¬ env.verifyVaa st.guardian_set vaa = true
          · rw [if_pos h3]
            simp
          · rw [if_neg h3]
            cases hp : env.parseWormholeMessage vaa.payload <;> simp
  · simp [write_phase]

theorem complete_phase_dichotomy (env : Env) (st : StoreState) (slot : Slot) :
    (((complete_phase env st slot).1).completions = st.completions ∧
     ((complete_phase env st slot).1).last_completed_update_at =
       st.last_completed_update_at) ∨
    (((complete_phase env st slot).1).completions = st.completions + 1 ∧
     ((complete_phase env st slot).1).last_completed_update_at = some env.now_mono) := by
  rcases hacc : lookupSlot st.accumulatorMessagesMap slot with _ | acc
  · left
    simp [complete_phase_no_acc env st slot hacc]
  rcases hwms : lookupSlot st.wormholeMerkleStateMap slot with _ | wms
  · left
    simp [complete_phase_no_wms env st slot hwms]
  rcases hms : message_states_of env acc wms with e | l
  · left
    simp [complete_phase_err env st slot acc wms e hacc hwms hms]
  · right
    simp [complete_phase_ok env st slot acc wms l hacc hwms hms]

theorem store_update_dichotomy (env : Env) (st : StoreState) (u : Update) :
    (((store_update env st u).1).completions = st.completions ∧
     ((store_update env st u).1).last_completed_update_at =
       st.last_completed_update_at) ∨
    (((store_update env st u).1).completions = st.completions + 1 ∧
     ((store_update env st u).1).last_completed_update_at = some env.now_mono) := by
  have hpres := write_phase_preserves env st u
  rcases hw : write_phase env st u with ⟨st', out⟩
  rw [hw] at hpres
  dsimp only at hpres
  obtain ⟨h1, h2, _, _⟩ := hpres
  cases out with
  | earlyOk =>
    left
    have : store_update env st u = (st', StoreResult.ok) := by
      simp [store_update, hw]
    rw [this]
    exact ⟨h1, h2⟩
  | earlyErr e =>
    left
    have : store_update env st u = (st', StoreResult.err e) := by
      simp [store_update, hw]
    rw [this]
    exact ⟨h1, h2⟩
  | proceed slot =>
    have : store_update env st u = complete_phase env st' slot := by
      simp [store_update, hw]
    rw [this]
    rcases complete_phase_dichotomy env st' slot with ⟨hc, hl⟩ | ⟨hc, hl⟩
    · left
      exact ⟨by omega, by rw [hl, h2]⟩
    · right
      exact ⟨by omega, hl⟩

theorem runUpdates_nil (env : Env) (st : StoreState) : runUpdates env st [] = st := rfl

theorem runUpdates_cons (env : Env) (st : StoreState) (u : Update) (us : List Update) :
    runUpdates env st (u :: us) = runUpdates env ((store_update env st u).1) us := rfl

theorem runUpdates_append (env : Env) (st : StoreState) (us vs : List Update) :
    runUpdates env st (us ++ vs) = runUpdates env (runUpdates env st us) vs := by
  simp [runUpdates, List.foldl_append]

theorem runUpdates_completions_mono (env : Env) :
    ∀ (us : List Update) (st : StoreState),
      st.completions ≤ (runUpdates env st us).completions := by
  intro us
  induction us with
  | nil => intro st; simp [runUpdates_nil]
  | cons u rest ih =>
    intro st
    rw [runUpdates_cons]
    have h1 : st.completions ≤ ((store_update env st u).1).completions := by
      rcases store_update_dichotomy env st u with ⟨h, _⟩ | ⟨h, _⟩ <;> omega
    exact le_trans h1 (ih ((store_update env st u).1))

theorem runUpdates_last_of_completions_eq (env : Env) :
    ∀ (us : List Update) (st : StoreState),
      (runUpdates env st us).completions = st.completions →
      (runUpdates env st us).last_completed_update_at = st.last_completed_update_at := by
  intro us
  induction us with
  | nil => intro st _; simp [runUpdates_nil]
  | cons u rest ih =>
    intro st hc
    rw [runUpdates_cons] at hc ⊢
    rcases store_update_dichotomy env st u with ⟨h1, h2⟩ | ⟨h1, h2⟩
    · rw [ih ((store_update env st u).1) (by omega), h2]
    · have := runUpdates_completions_mono env rest ((store_update env st u).1)
      omega

/-! ### The cache-eviction policy retains the largest slots -/

theorem retainedSlots_subset (k : Nat) (s : Finset Nat) : retainedSlots k s ⊆ s :=
  Finset.filter_subset _ s

theorem retainedSlots_eq_of_card_le (k : Nat) (s : Finset Nat) (h : s.card ≤ k) :
    retainedSlots k s = s := by
  unfold retainedSlots
  apply Finset.filter_true_of_mem
  intro x hx
  have h1 : (s.filter (fun y => x < y)).card ≤ (s.erase x).card := by
    apply Finset.card_le_card
    intro y hy
    rw [Finset.mem_filter] at hy
    exact Finset.mem_erase.mpr ⟨by omega, hy.1⟩
  have h2 : (s.erase x).card = s.card - 1 := Finset.card_erase_of_mem hx
  have h3 : 1 ≤ s.card := Finset.card_pos.mpr ⟨x, hx⟩
  omega

theorem retainedSlots_card (k : Nat) :
    ∀ s : Finset Nat, (retainedSlots k s).card = min k s.card := by
  induction k with
  | zero => intro s; simp [retainedSlots]
  | succ k ih =>
    intro s
    rcases s.eq_empty_or_nonempty with rfl | hne
    · simp [retainedSlots]
    · have hMs : s.max' hne ∈ s := s.max'_mem hne
      have key : retainedSlots (k + 1) s =
          insert (s.max' hne) (retainedSlots k (s.erase (s.max' hne))) := by
        ext x
        simp only [retainedSlots, Finset.mem_insert, Finset.mem_filter, Finset.mem_erase]
        constructor
        · rintro ⟨hx, hcard⟩
          by_cases hxM : x = s.max' hne
          · exact Or.inl hxM
          · refine Or.inr ⟨⟨hxM, hx⟩, ?_⟩
            have hxltM : x < s.max' hne := lt_of_le_of_ne (s.le_max' x hx) hxM
            have hMf : s.max' hne ∈ s.filter (fun y => x < y) :=
              Finset.mem_filter.mpr ⟨hMs, hxltM⟩
            have hpos : 0 < (s.filter (fun y => x < y)).card :=
              Finset.card_pos.mpr ⟨s.max' hne, hMf⟩
            rw [Finset.filter_erase, Finset.card_erase_of_mem hMf]
            omega
        · rintro (rfl | ⟨⟨hxM, hx⟩, hcard⟩)
          · refine ⟨hMs, ?_⟩
            have hempty : s.filter (fun y => s.max' hne < y) = ∅ := by
              rw [Finset.filter_eq_empty_iff]
              intro y hy
              exact not_lt_of_le (s.le_max' y hy)
            rw [hempty]
            simp
          · refine ⟨hx, ?_⟩
            have hxltM : x < s.max' hne := lt_of_le_of_ne (s.le_max' x hx) hxM
            have hMf : s.max' hne ∈ s.filter (fun y => x < y) :=
              Finset.mem_filter.mpr ⟨hMs, hxltM⟩
            rw [Finset.filter_erase, Finset.card_erase_of_mem hMf] at hcard
            omega
      have hnotmem : s.max' hne ∉ retainedSlots k (s.erase (s.max' hne)) := by
        intro hmem
        exact (Finset.mem_erase.mp (retainedSlots_subset k _ hmem)).1 rfl
      rw [key, Finset.card_insert_of_not_mem hnotmem, ih (s.erase (s.max' hne)),
        Finset.card_erase_of_mem hMs]
      have : 1 ≤ s.card := Finset.card_pos.mpr ⟨s.max' hne, hMs⟩
      omega

theorem retainedSlots_union_subset (k : Nat) (s t : Finset Nat) :
    retainedSlots k (s ∪ t) ⊆ retainedSlots k s ∪ t := by
  intro y hy
  rw [Finset.mem_union]
  obtain ⟨hyB, hcard⟩ := Finset.mem_filter.mp hy
  rcases Finset.mem_union.mp hyB with hys | hyt
  · left
    refine Finset.mem_filter.mpr ⟨hys, ?_⟩
    have hsub : (s.filter (fun z => y < z)).card ≤
        ((s ∪ t).filter (fun z => y < z)).card :=
      Finset.card_le_card (Finset.filter_subset_filter _ Finset.subset_union_left)
    omega
  · exact Or.inr hyt

theorem retainedSlots_eq_of_between (k : Nat) (A B : Finset Nat)
    (hAB : A ⊆ B) (hBA : retainedSlots k B ⊆ A) :
    retainedSlots k A = retainedSlots k B := by
  ext x
  simp only [retainedSlots, Finset.mem_filter]
  constructor
  · rintro ⟨hxA, hcard⟩
    refine ⟨hAB hxA, ?_⟩
    by_contra hge
    push_neg at hge
    have hTcard : (retainedSlots k (B.filter (fun y => x < y))).card = k := by
      rw [retainedSlots_card k (B.filter (fun y => x < y))]
      omega
    have hTsub : retainedSlots k (B.filter (fun y => x < y)) ⊆
        A.filter (fun y => x < y) := by
      intro y hy
      obtain ⟨hyS, hyrank⟩ := Finset.mem_filter.mp hy
      obtain ⟨hyB, hxy⟩ := Finset.mem_filter.mp hyS
      have hfil : B.filter (fun z => y < z) =
          (B.filter (fun y => x < y)).filter (fun z => y < z) := by
        ext z
        simp only [Finset.mem_filter]
        constructor
        · rintro ⟨hzB, hyz⟩
          exact ⟨⟨hzB, by omega⟩, hyz⟩
        · rintro ⟨⟨hzB, _⟩, hyz⟩
          exact ⟨hzB, hyz⟩
      have hyRB : y ∈ retainedSlots k B := by
        refine Finset.mem_filter.mpr ⟨hyB, ?_⟩
        rw [hfil]
        exact hyrank
      exact Finset.mem_filter.mpr ⟨hBA hyRB, hxy⟩
    have hge2 : k ≤ (A.filter (fun y => x < y)).card :=
      hTcard ▸ Finset.card_le_card hTsub
    omega
  · rintro ⟨hxB, hcard⟩
    have hxA : x ∈ A := hBA (Finset.mem_filter.mpr ⟨hxB, hcard⟩)
    refine ⟨hxA, ?_⟩
    have hsub : (A.filter (fun y => x < y)).card ≤
        (B.filter (fun y => x < y)).card :=
      Finset.card_le_card (Finset.filter_subset_filter _ hAB)
    omega

theorem retainedSlots_absorb (k : Nat) (s t : Finset Nat) :
    retainedSlots k (retainedSlots k s ∪ t) = retainedSlots k (s ∪ t) := by
  apply retainedSlots_eq_of_between
  · exact Finset.union_subset_union_left (retainedSlots_subset k s)
  · exact retainedSlots_union_subset k s t

theorem slotsOf_append (h n : List MessageState) :
    slotsOf (h ++ n) = slotsOf h ∪ slotsOf n := by
  simp [slotsOf]

theorem slotsOf_filter_retained (l : List MessageState) (R : Finset Nat)
    (hR : R ⊆ slotsOf l) :
    slotsOf (l.filter (fun m => m.slot ∈ R)) = R := by
  ext x
  simp only [slotsOf, List.mem_toFinset, List.mem_map, List.mem_filter]
  constructor
  · rintro ⟨m, ⟨hm, hmem⟩, rfl⟩
    simpa using hmem
  · intro hx
    have hx2 := hR hx
    simp only [slotsOf, List.mem_toFinset, List.mem_map] at hx2
    obtain ⟨m, hm, rfl⟩ := hx2
    exact ⟨m, ⟨hm, by simpa using hx⟩, rfl⟩

theorem slotsOf_store_message_states (k : Nat) (h n : List MessageState) :
    slotsOf (store_message_states k h n) = retainedSlots k (slotsOf h ∪ slotsOf n) := by
  unfold store_message_states
  by_cases hc : (slotsOf (h ++ n)).card ≤ k
  · rw [if_pos hc, ← slotsOf_append,
      retainedSlots_eq_of_card_le k (slotsOf (h ++ n)) hc]
  · rw [if_neg hc, ← slotsOf_append]
    exact slotsOf_filter_retained (h ++ n) (retainedSlots k (slotsOf (h ++ n)))
      (retainedSlots_subset k (slotsOf (h ++ n)))

theorem foldl_store_slots (k : Nat) :
    ∀ (bs : List (List MessageState)) (h : List MessageState) (s : Finset Nat),
      slotsOf h = retainedSlots k s →
      slotsOf (bs.foldl (fun acc b => store_message_states k acc b) h) =
        retainedSlots k (s ∪ slotsOf bs.flatten) := by
  intro bs
  induction bs with
  | nil =>
    intro h s hh
    simpa [slotsOf] using hh
  | cons b rest ih =>
    intro h s hh
    rw [List.foldl_cons]
    have hstep : slotsOf (store_message_states k h b) =
        retainedSlots k (s ∪ slotsOf b) := by
      rw [slotsOf_store_message_states, hh, retainedSlots_absorb]
    rw [ih (store_message_states k h b) (s ∪ slotsOf b) hstep]
    congr 1
    rw [List.flatten_cons, slotsOf_append, ← Finset.union_assoc]

/-! ### What a `store_update` call can do to the observed-sequence set -/

theorem insertSorted_length_cases (x : Nat) :
    ∀ l : List Nat, (insertSorted x l).length = l.length ∨
      (insertSorted x l).length = l.length + 1 := by
  intro l
  induction l with
  | nil => simp [insertSorted]
  | cons y ys ih =>
    by_cases h1 : x < y
    · simp [insertSorted, h1]
    · by_cases h2 : x = y
      · simp [insertSorted, h1, h2]
      · rcases ih with h | h <;> simp [insertSorted, h1, h2, h]

theorem store_update_observed_cases (env : Env) (st : StoreState) (u : Update) :
    ((store_update env st u).1).observed_vaa_seqs = st.observed_vaa_seqs ∨
    ∃ s, ((store_update env st u).1).observed_vaa_seqs =
      observeSequence s st.observed_vaa_seqs := by
  rcases u with bytes | batch
  · rcases hparse : env.parseVaa bytes with _ | vaa
    · left
      simp [store_update, write_phase_vaa_parse_none env st bytes hparse]
    · by_cases hm : vaa.emitter_chain ≠ env.emitterChain ∨
          vaa.emitter_address ≠ env.emitterAddress
      · left
        simp [store_update, write_phase_vaa_emitter_mismatch env st bytes vaa hparse hm]
      · push_neg at hm
        by_cases hobs : vaa.sequence ∈ st.observed_vaa_seqs
        · left
          simp [store_update,
            write_phase_vaa_observed env st bytes vaa hparse hm.1 hm.2 hobs]
        · by_cases hv : env.verifyVaa st.guardian_set vaa = true
          · rcases hp : env.parseWormholeMessage vaa.payload with _ | root
            · right
              exact ⟨vaa.sequence, by
                simp [store_update,
                  write_phase_vaa_payload_none env st bytes vaa hparse hm.1 hm.2 hobs hv hp]⟩
            · right
              refine ⟨vaa.sequence, ?_⟩
              rw [store_update_vaa_proceed env st bytes vaa root hparse hm.1 hm.2 hobs hv hp,
                complete_phase_observed]
          · left
            simp [store_update,
              write_phase_vaa_unverified env st bytes vaa hparse hm.1 hm.2 hobs hv]
  · left
    rw [store_update_acc, complete_phase_observed]

/-! ### A concrete reachable store state with a full observed-sequence cache -/

/-- One thousand observed sequence numbers, `41` up to `1040`: a full
`observed_vaa_seqs` cache in which every sequence is greater than `20`. -/
def obsFull : List Nat := (List.range OBSERVED_CACHE_SIZE).map (fun i => i + 41)

theorem obsFull_sorted : List.Sorted (fun a b => a < b) obsFull := by
  have h := List.pairwise_lt_range OBSERVED_CACHE_SIZE
  exact List.Pairwise.map _ (fun a b hab => by omega) h

/-- The `WormholeMerkleState` the `n`-th setup VAA stores for slot 99. -/
def wms99 (n : Nat) : WormholeMerkleState := ⟨⟨99, 100, [9]⟩, [n + 40]⟩

/-- State of the store after the first `n` setup VAAs (sequences `41` up to
`n + 40`, all committing the slot-99 root, a slot with no accumulator
half). -/
def c5Stage (n : Nat) : StoreState :=
  ⟨[], if n = 0 then [] else [(99, wms99 n)], [],
    (List.range n).map (fun i => i + 41), [], none, 0, []⟩

theorem c5_reach_stage (n : Nat) (hn : n ≤ OBSERVED_CACHE_SIZE) :
    runUpdates testEnv initialStore
        ((List.range n).map (fun i => Update.vaa [i + 41])) = c5Stage n := by
  induction n with
  | zero => simp [runUpdates_nil, c5Stage, initialStore]
  | succ n ih =>
    rw [List.range_succ, List.map_append, runUpdates_append, ih (by omega)]
    simp only [List.map_cons, List.map_nil]
    rw [runUpdates_cons, runUpdates_nil]
    have hparse : testEnv.parseVaa [n + 41] =
        some ⟨n + 41, 26, [7], 0, [3]⟩ := by
      have hne : ¬ n + 41 = 20 := by omega
      simp [testEnv, hne]
    have hobs : (n + 41) ∉ (c5Stage n).observed_vaa_seqs := by
      intro hmem
      simp only [c5Stage, List.mem_map, List.mem_range] at hmem
      omega
    have hv : testEnv.verifyVaa (c5Stage n).guardian_set ⟨n + 41, 26, [7], 0, [3]⟩ = true := by
      simp [testEnv]
    have hp : testEnv.parseWormholeMessage [3] = some ⟨99, 100, [9]⟩ := by
      simp [testEnv]
    rw [store_update_vaa_proceed testEnv (c5Stage n) [n + 41]
      ⟨n + 41, 26, [7], 0, [3]⟩ ⟨99, 100, [9]⟩ hparse rfl rfl hobs hv hp]
    rw [complete_phase_no_acc _ _ _ (by simp [c5Stage, lookupSlot])]
    have hseq : observeSequence (n + 41) ((List.range n).map (fun i => i + 41)) =
        (List.range (n + 1)).map (fun i => i + 41) := by
      have hlt : ∀ y ∈ (List.range n).map (fun i => i + 41), y < n + 41 := by
        intro y hy
        simp only [List.mem_map, List.mem_range] at hy
        omega
      rw [observeSequence, insertSorted_append_of_lt _ _ hlt,
        trimObserved_eq_of_le _ (by simp; omega), List.range_succ, List.map_append]
      simp
    cases n with
    | zero =>
      simp only [c5Stage, wms99]
      rw [StoreState.mk.injEq]
      refine ⟨rfl, ?_, rfl, ?_, rfl, rfl, rfl, rfl⟩
      · simp [upsert]
      · simpa [c5Stage] using hseq
    | succ m =>
      simp only [c5Stage, wms99]
      rw [StoreState.mk.injEq]
      refine ⟨rfl, ?_, rfl, ?_, rfl, rfl, rfl, rfl⟩
      · simp [upsert]
      · simpa [c5Stage] using hseq

/-- The store state reached by the counterexample setup: a full observed
cache `obsFull`, the slot-10 accumulator half stored, and the partial
slot-99 VAA half left over from the setup VAAs. -/
def c5St0 : StoreState :=
  ⟨[(10, testBatch)], [(99, wms99 OBSERVED_CACHE_SIZE)], [], obsFull, [], none, 0, []⟩

/-- The setup trace: one thousand verified VAAs for the accumulator-less
slot 99 (filling `observed_vaa_seqs` with `41` up to `1040`), then the
slot-10 accumulator batch. -/
def c5Trace : List Update :=
  ((List.range OBSERVED_CACHE_SIZE).map (fun i => Update.vaa [i + 41])) ++
    [Update.accumulatorMessages testBatch]

theorem c5_reach : runUpdates testEnv initialStore c5Trace = c5St0 := by
  rw [c5Trace, runUpdates_append, c5_reach_stage OBSERVED_CACHE_SIZE (le_refl _),
    runUpdates_cons, runUpdates_nil, store_update_acc]
  rw [complete_phase_no_wms _ _ _
    (by simp [c5Stage, lookupSlot, testBatch, OBSERVED_CACHE_SIZE])]
  have h0 : (OBSERVED_CACHE_SIZE = 0) = False := by
    simp [OBSERVED_CACHE_SIZE]
  simp only [c5Stage, h0, if_false, c5St0]
  rw [StoreState.mk.injEq]
  exact ⟨by simp [upsert, testBatch], rfl, rfl, rfl, rfl, rfl, rfl, rfl⟩

/-! ### The claims -/

/-- C1.  If, when a slot becomes complete, the Merkle root computed over the
stored raw messages does not match the committed root, or any raw message
fails to decode, or a proof is missing for an index, then the completing
`store_update` call returns an error and no MessageStates for that slot are
stored (the stored message-state history is unchanged).  Both completing
halves are covered: the first conjunct is the call completing with the
accumulator half, the second the call completing with the VAA half. -/
theorem c1_integrity_failure :
    (∀ (env : Env) (st : StoreState) (batch : AccumulatorMessages)
        (wms : WormholeMerkleState),
        lookupSlot st.wormholeMerkleStateMap batch.slot = some wms →
        (merkleRoot env batch.raw_messages ≠ wms.root.root ∨
          (∃ raw ∈ batch.raw_messages, env.parseMessage raw = none) ∨
          (∃ ps, construct_message_states_proofs env batch wms = Except.ok ps ∧
            ps.length < batch.raw_messages.length)) →
        (∃ e, (store_update env st (Update.accumulatorMessages batch)).2 =
          StoreResult.err e) ∧
        ((store_update env st (Update.accumulatorMessages batch)).1).messageStates =
          st.messageStates) ∧
    (∀ (env : Env) (st : StoreState) (bytes : Bytes) (vaa : Vaa)
        (root : WormholeMerkleRoot) (acc : AccumulatorMessages),
        env.parseVaa bytes = some vaa →
        vaa.emitter_chain = env.emitterChain →
        vaa.emitter_address = env.emitterAddress →
        vaa.sequence ∉ st.observed_vaa_seqs →
        env.verifyVaa st.guardian_set vaa = true →
        env.parseWormholeMessage vaa.payload = some root →
        lookupSlot st.accumulatorMessagesMap root.slot = some acc →
        (merkleRoot env acc.raw_messages ≠ root.root ∨
          (∃ raw ∈ acc.raw_messages, env.parseMessage raw = none) ∨
          (∃ ps, construct_message_states_proofs env acc ⟨root, bytes⟩ = Except.ok ps ∧
            ps.length < acc.raw_messages.length)) →
        (∃ e, (store_update env st (Update.vaa bytes)).2 = StoreResult.err e) ∧
        ((store_update env st (Update.vaa bytes)).1).messageStates =
          st.messageStates) := by
  constructor
  · intro env st batch wms hwms hbad
    rw [store_update_acc]
    obtain ⟨e, he⟩ := message_states_of_err env batch wms hbad
    set st1 : StoreState :=
      { st with accumulatorMessagesMap :=
          upsert batch.slot batch st.accumulatorMessagesMap } with hst1
    have hacc1 : lookupSlot st1.accumulatorMessagesMap batch.slot = some batch :=
      lookupSlot_upsert_self batch.slot batch st.accumulatorMessagesMap
    have hwms1 : lookupSlot st1.wormholeMerkleStateMap batch.slot = some wms := hwms
    rw [complete_phase_err env st1 batch.slot batch wms e hacc1 hwms1 he]
    exact ⟨⟨e, rfl⟩, rfl⟩
  · intro env st bytes vaa root acc hparse hc ha hobs hv hp hacc hbad
    rw [store_update_vaa_proceed env st bytes vaa root hparse hc ha hobs hv hp]
    obtain ⟨e, he⟩ := message_states_of_err env acc ⟨root, bytes⟩ hbad
    set st1 : StoreState :=
      { st with
          observed_vaa_seqs := observeSequence vaa.sequence st.observed_vaa_seqs,
          wormholeMerkleStateMap :=
            upsert root.slot ⟨root, bytes⟩ st.wormholeMerkleStateMap } with hst1
    have hacc1 : lookupSlot st1.accumulatorMessagesMap root.slot = some acc := hacc
    have hwms1 : lookupSlot st1.wormholeMerkleStateMap root.slot =
        some ⟨root, bytes⟩ :=
      lookupSlot_upsert_self root.slot ⟨root, bytes⟩ st.wormholeMerkleStateMap
    rw [complete_phase_err env st1 root.slot acc ⟨root, bytes⟩ e hacc1 hwms1 he]
    exact ⟨⟨e, rfl⟩, rfl⟩

/-- Witness for C1: a concrete completing call whose committed root `[0]`
differs from the computed root `[1, 2]`. -/
def c1BadWms : WormholeMerkleState := ⟨⟨10, 100, [0]⟩, [20]⟩

/-- A store holding the bad slot-10 VAA half and nothing else. -/
def c1State : StoreState := ⟨[], [(10, c1BadWms)], [], [], [], none, 0, []⟩

theorem c1_witness :
    (∃ e, (store_update testEnv c1State (Update.accumulatorMessages testBatch)).2 =
      StoreResult.err e) ∧
    ((store_update testEnv c1State (Update.accumulatorMessages testBatch)).1).messageStates =
      c1State.messageStates :=
  c1_integrity_failure.1 testEnv c1State testBatch c1BadWms rfl (Or.inl (by decide))

set_option maxRecDepth 10000 in
/-- C2.  The specification requires that for each slot
`build_message_states` is invoked at most once across the lifetime of the
slot, under arbitrary arrival order and interleaving of the two halves.
The code violates this: it has no per-slot completion flag, so (first
conjunct) when a writer's store of the accumulator half interleaves with a
full `store_update` of the matching VAA before the writer's read-back, both
callers observe a complete slot and `build_message_states` runs twice for
slot 10; and (second conjunct) even sequentially, re-delivering the
accumulator batch after the slot completed runs it a second time. -/
theorem c2_build_message_states_twice :
    (((complete_phase testEnv
        ((store_update testEnv
          ((write_phase testEnv initialStore (Update.accumulatorMessages testBatch)).1)
          (Update.vaa [20])).1)
        10).1).builds = [10, 10]) ∧
    ((runUpdates testEnv initialStore
        [Update.accumulatorMessages testBatch, Update.vaa [20],
          Update.accumulatorMessages testBatch]).builds = [10, 10]) :=
  ⟨rfl, rfl⟩

/-- C3.  After every `store_update` call the observed-sequence cache holds
at most `OBSERVED_CACHE_SIZE = 1000` sequences (first conjunct, an
invariant preserved from any in-bound state), and when inserting a new
sequence would exceed the bound, the pop-first trim drops exactly the head
of the sorted set, which is its numerically smallest element (second
conjunct). -/
theorem c3_observed_cache_bound :
    (∀ (env : Env) (st : StoreState) (u : Update),
        st.observed_vaa_seqs.length ≤ OBSERVED_CACHE_SIZE →
        ((store_update env st u).1).observed_vaa_seqs.length ≤ OBSERVED_CACHE_SIZE) ∧
    (∀ (seq : Nat) (l : List Nat),
        List.Sorted (fun a b => a < b) l →
        l.length ≤ OBSERVED_CACHE_SIZE →
        OBSERVED_CACHE_SIZE < (insertSorted seq l).length →
        observeSequence seq l = (insertSorted seq l).tail ∧
        ∀ m, (insertSorted seq l).head? = some m →
          ∀ x ∈ insertSorted seq l, m ≤ x) := by
  constructor
  · intro env st u h
    rcases store_update_observed_cases env st u with hcase | ⟨s, hcase⟩
    · rw [hcase]
      exact h
    · rw [hcase]
      exact observeSequence_length_le s st.observed_vaa_seqs
  · intro seq l hs hlen hover
    have hlen2 : (insertSorted seq l).length = OBSERVED_CACHE_SIZE + 1 := by
      rcases insertSorted_length_cases seq l with h | h <;> omega
    refine ⟨trimObserved_eq_tail _ hlen2, ?_⟩
    intro m hm x hx
    have hs2 : List.Sorted (fun a b => a < b) (insertSorted seq l) :=
      insertSorted_sorted seq l hs
    cases hl : insertSorted seq l with
    | nil =>
      rw [hl] at hm
      exact absurd hm (by simp)
    | cons a as =>
      rw [hl] at hm
      simp only [List.head?_cons, Option.some.injEq] at hm
      subst hm
      rw [hl] at hs2 hx
      exact sorted_head_min a as hs2 x hx

theorem c3_witness :
    ((store_update testEnv initialStore (Update.vaa [20])).1).observed_vaa_seqs.length ≤
        OBSERVED_CACHE_SIZE ∧
    (observeSequence 20 obsFull = (insertSorted 20 obsFull).tail ∧
      ∀ m, (insertSorted 20 obsFull).head? = some m →
        ∀ x ∈ insertSorted 20 obsFull, m ≤ x) := by
  constructor
  · exact c3_observed_cache_bound.1 testEnv initialStore (Update.vaa [20])
      (by simp [initialStore])
  · refine c3_observed_cache_bound.2 20 obsFull obsFull_sorted (by simp [obsFull]) ?_
    have h20 : 20 ∉ obsFull := by
      intro h
      simp only [obsFull, List.mem_map, List.mem_range] at h
      omega
    rw [insertSorted_length_of_not_mem 20 obsFull h20]
    simp [obsFull]

/-- C4.  After any sequence of `store_message_states` insertions starting
from an empty history, at most `cache_size` distinct slots have
`MessageState`s in storage, and the retained slots are exactly the
`cache_size` largest slot numbers ever inserted (an inserted slot is
retained iff fewer than `cache_size` inserted slots are larger), regardless
of arrival order. -/
theorem c4_eviction_retains_largest_slots (k : Nat)
    (batches : List (List MessageState)) :
    (slotsOf (batches.foldl (fun h b => store_message_states k h b) [])).card ≤ k ∧
    ∀ x : Nat,
      x ∈ slotsOf (batches.foldl (fun h b => store_message_states k h b) []) ↔
        (x ∈ slotsOf batches.flatten ∧
          ((slotsOf batches.flatten).filter (fun y => x < y)).card < k) := by
  have h0 : slotsOf ([] : List MessageState) = retainedSlots k ∅ := by
    simp [slotsOf, retainedSlots]
  have hmain := foldl_store_slots k batches [] ∅ h0
  rw [Finset.empty_union] at hmain
  constructor
  · rw [hmain, retainedSlots_card]
    omega
  · intro x
    rw [hmain]
    simp [retainedSlots, Finset.mem_filter]

/-- C5 (amended).  If `store_update` is called with a VAA whose sequence
number is already present in `observed_vaa_seqs`, the call returns success
without making any further state transition.  (The original claim's second
sentence -- feeding the same VAA twice makes at most one state transition --
fails when the first feed's sequence is immediately evicted by the
size-1000 trim; see the counterexample.) -/
theorem c5_dedup_no_transition (env : Env) (st : StoreState) (bytes : Bytes)
    (vaa : Vaa) (hparse : env.parseVaa bytes = some vaa)
    (hobs : vaa.sequence ∈ st.observed_vaa_seqs) :
    store_update env st (Update.vaa bytes) = (st, StoreResult.ok) := by
  by_cases hm : vaa.emitter_chain ≠ env.emitterChain ∨
      vaa.emitter_address ≠ env.emitterAddress
  · simp [store_update, write_phase_vaa_emitter_mismatch env st bytes vaa hparse hm]
  · push_neg at hm
    simp [store_update,
      write_phase_vaa_observed env st bytes vaa hparse hm.1 hm.2 hobs]

/-- A store with one observed sequence, used to witness the dedup path. -/
def c5DupState : StoreState := ⟨[], [], [], [20], [], none, 0, []⟩

theorem c5_dedup_witness :
    store_update testEnv c5DupState (Update.vaa [20]) = (c5DupState, StoreResult.ok) :=
  c5_dedup_no_transition testEnv c5DupState [20] ⟨20, 26, [7], 0, [2]⟩ rfl
    (by simp [c5DupState])

set_option maxRecDepth 10000 in
/-- C5 counterexample.  From the reachable state `c5St0` (reached by the
concrete trace `c5Trace`: one thousand observed sequences `41` up to
`1040`, slot-10 accumulator half stored), feeding the same VAA bytes `[20]`
twice produces TWO state transitions: the first feed completes slot 10
(one completion) but sequence 20, being the smallest, is immediately
evicted by the trim, so the second identical feed is not deduplicated and
completes slot 10 again (a second completion), contradicting the claim's
"feeding the same VAA twice results in at most one state transition". -/
theorem c5_counterexample :
    runUpdates testEnv initialStore c5Trace = c5St0 ∧
    (store_update testEnv c5St0 (Update.vaa [20])).2 = StoreResult.ok ∧
    ((store_update testEnv c5St0 (Update.vaa [20])).1).completions = 1 ∧
    ((store_update testEnv ((store_update testEnv c5St0 (Update.vaa [20])).1)
        (Update.vaa [20])).1).completions = 2 :=
  ⟨c5_reach, rfl, rfl, rfl⟩

/-- C6.  After a `store_update` writes one half of a slot, it reads back
both halves; if the other half is absent the call returns success with the
state unchanged except for the written half -- in particular no
`MessageState`s are built, no completion notification is sent, and
`last_completed_update_at` is not updated.  First conjunct: accumulator
half written, VAA half absent.  Second conjunct: VAA half written,
accumulator half absent. -/
theorem c6_partial_slot :
    (∀ (env : Env) (st : StoreState) (batch : AccumulatorMessages),
        lookupSlot st.wormholeMerkleStateMap batch.slot = none →
        store_update env st (Update.accumulatorMessages batch) =
          ({ st with
              accumulatorMessagesMap :=
                upsert batch.slot batch st.accumulatorMessagesMap },
            StoreResult.ok)) ∧
    (∀ (env : Env) (st : StoreState) (bytes : Bytes) (vaa : Vaa)
        (root : WormholeMerkleRoot),
        env.parseVaa bytes = some vaa →
        vaa.emitter_chain = env.emitterChain →
        vaa.emitter_address = env.emitterAddress →
        vaa.sequence ∉ st.observed_vaa_seqs →
        env.verifyVaa st.guardian_set vaa = true →
        env.parseWormholeMessage vaa.payload = some root →
        lookupSlot st.accumulatorMessagesMap root.slot = none →
        store_update env st (Update.vaa bytes) =
          ({ st with
              observed_vaa_seqs := observeSequence vaa.sequence st.observed_vaa_seqs,
              wormholeMerkleStateMap :=
                upsert root.slot ⟨root, bytes⟩ st.wormholeMerkleStateMap },
            StoreResult.ok)) := by
  constructor
  · intro env st batch h
    rw [store_update_acc]
    exact complete_phase_no_wms env _ batch.slot h
  · intro env st bytes vaa root hparse hc ha hobs hv hp h
    rw [store_update_vaa_proceed env st bytes vaa root hparse hc ha hobs hv hp]
    exact complete_phase_no_acc env _ root.slot h

theorem c6_witness :
    store_update testEnv initialStore (Update.accumulatorMessages testBatch) =
      ({ initialStore with
          accumulatorMessagesMap :=
            upsert testBatch.slot testBatch initialStore.accumulatorMessagesMap },
        StoreResult.ok) ∧
    store_update testEnv initialStore (Update.vaa [20]) =
      ({ initialStore with
          observed_vaa_seqs := observeSequence 20 initialStore.observed_vaa_seqs,
          wormholeMerkleStateMap :=
            upsert 10 ⟨⟨10, 100, [1, 2]⟩, [20]⟩ initialStore.wormholeMerkleStateMap },
        StoreResult.ok) :=
  ⟨c6_partial_slot.1 testEnv initialStore testBatch rfl,
   c6_partial_slot.2 testEnv initialStore [20] ⟨20, 26, [7], 0, [2]⟩ ⟨10, 100, [1, 2]⟩
     rfl rfl rfl (by simp [initialStore]) rfl rfl rfl⟩

/-- C7.  If `store_update` is called with a VAA whose emitter chain is not
the configured oracle chain or whose emitter address is not the configured
accumulator emitter, the call returns success and the state is completely
unchanged: no state is created and no completion is emitted. -/
theorem c7_emitter_mismatch_ignored (env : Env) (st : StoreState) (bytes : Bytes)
    (vaa : Vaa) (hparse : env.parseVaa bytes = some vaa)
    (hm : vaa.emitter_chain ≠ env.emitterChain ∨
      vaa.emitter_address ≠ env.emitterAddress) :
    store_update env st (Update.vaa bytes) = (st, StoreResult.ok) := by
  simp [store_update, write_phase_vaa_emitter_mismatch env st bytes vaa hparse hm]

/-- An oracle instantiation whose configured emitter chain differs from the
chain carried by the test VAAs. -/
def c7Env : Env := { testEnv with emitterChain := 1 }

theorem c7_witness :
    store_update c7Env initialStore (Update.vaa [20]) = (initialStore, StoreResult.ok) :=
  c7_emitter_mismatch_ignored c7Env initialStore [20] ⟨20, 26, [7], 0, [2]⟩ rfl
    (Or.inl (by decide))

/-- C8.  `is_ready` returns true if and only if `last_completed_update_at`
has been set and the monotonic time elapsed since it is strictly less than
the 30-second staleness threshold (first conjunct); in particular it
returns false on any store run from the initial state in which no slot
completion has happened (second conjunct). -/
theorem c8_is_ready_iff :
    (∀ (env : Env) (st : StoreState),
        is_ready env st = true ↔
          ∃ t, st.last_completed_update_at = some t ∧
            env.now_mono - t < READINESS_STALENESS_THRESHOLD) ∧
    (∀ (env env2 : Env) (us : List Update),
        (runUpdates env initialStore us).completions = 0 →
        is_ready env2 (runUpdates env initialStore us) = false) := by
  constructor
  · intro env st
    cases h : st.last_completed_update_at with
    | none => simp [is_ready, h]
    | some t => simp [is_ready, h]
  · intro env env2 us h
    have hlast := runUpdates_last_of_completions_eq env us initialStore h
    rw [is_ready, hlast]
    rfl

theorem c8_witness :
    is_ready testEnv (runUpdates testEnv initialStore []) = false :=
  c8_is_ready_iff.2 testEnv testEnv [] rfl

/-- C9.  If `store_update` is called with VAA bytes that fail to parse as a
VAA (first conjunct), or with a verified VAA whose payload fails to parse
as a WormholeMessage (second conjunct), the call returns an error to the
caller rather than silently returning success. -/
theorem c9_parse_failure_errors :
    (∀ (env : Env) (st : StoreState) (bytes : Bytes),
        env.parseVaa bytes = none →
        store_update env st (Update.vaa bytes) =
          (st, StoreResult.err StoreError.vaaParse)) ∧
    (∀ (env : Env) (st : StoreState) (bytes : Bytes) (vaa : Vaa),
        env.parseVaa bytes = some vaa →
        vaa.emitter_chain = env.emitterChain →
        vaa.emitter_address = env.emitterAddress →
        vaa.sequence ∉ st.observed_vaa_seqs →
        env.verifyVaa st.guardian_set vaa = true →
        env.parseWormholeMessage vaa.payload = none →
        store_update env st (Update.vaa bytes) =
          ({ st with observed_vaa_seqs :=
              observeSequence vaa.sequence st.observed_vaa_seqs },
            StoreResult.err StoreError.wormholeMessageParse)) := by
  constructor
  · intro env st bytes h
    simp [store_update, write_phase_vaa_parse_none env st bytes h]
  · intro env st bytes vaa hparse hc ha hobs hv hp
    simp [store_update,
      write_phase_vaa_payload_none env st bytes vaa hparse hc ha hobs hv hp]

/-- An oracle instantiation whose WormholeMessage payload codec always
fails. -/
def c9Env : Env := { testEnv with parseWormholeMessage := fun _ => none }

theorem c9_witness :
    store_update testEnv initialStore (Update.vaa []) =
      (initialStore, StoreResult.err StoreError.vaaParse) ∧
    store_update c9Env initialStore (Update.vaa [20]) =
      ({ initialStore with
          observed_vaa_seqs := observeSequence 20 initialStore.observed_vaa_seqs },
        StoreResult.err StoreError.wormholeMessageParse) :=
  ⟨c9_parse_failure_errors.1 testEnv initialStore [] rfl,
   c9_parse_failure_errors.2 c9Env initialStore [20] ⟨20, 26, [7], 0, [2]⟩
     rfl rfl rfl (by simp [initialStore]) rfl rfl⟩

/-- C10.  Every `MessageState` produced by a single successful invocation
of `build_message_states` carries slot equal to the accumulator batch's
slot and the same `received_at` value -- the single wall-clock sample the
invocation takes (`Env.now_unix`); one `MessageState` is produced per raw
message, in batch order (the i-th state's raw bytes are the i-th raw
message). -/
theorem c10_message_states_shape (env : Env) (acc : AccumulatorMessages)
    (wms : WormholeMerkleState) (l : List MessageState)
    (h : message_states_of env acc wms = Except.ok l) :
    l.length = acc.raw_messages.length ∧
    ∀ (i : Nat) (ms : MessageState), l[i]? = some ms →
      ms.slot = acc.slot ∧ ms.received_at = env.now_unix ∧
        acc.raw_messages[i]? = some ms.raw_message :=
  message_states_of_shape env acc wms l h

/-- The two `MessageState`s built for the test batch under `testEnv`. -/
def c10List : List MessageState :=
  [⟨Message.other 0, [1], ⟨[[2]]⟩, 10, 5⟩, ⟨Message.other 0, [2], ⟨[[1]]⟩, 10, 5⟩]

theorem c10_witness :
    c10List.length = testBatch.raw_messages.length ∧
    ∀ (i : Nat) (ms : MessageState), c10List[i]? = some ms →
      ms.slot = testBatch.slot ∧ ms.received_at = testEnv.now_unix ∧
        testBatch.raw_messages[i]? = some ms.raw_message :=
  c10_message_states_shape testEnv testBatch testWms c10List (by rfl)

end Hermes
